import Mathlib

/-!
Shallow embedding of the GetTable repository: the caption extractor
(extractTableInfo in GetTable.cpp, a std regex search applied per input
line), the order validator (findMisorderedTables in GetTable.cpp and its
two variant translation units), the trim helper and the text pipeline of
main.  The regex semantics are embedded following the ECMAScript
backtracking rules that std regex implements; every definition carries a
comment naming the source code it is translated from.
-/

/-- Whitespace class: the characters accepted by the regex whitespace
class and by the isspace test used in trim, under the default C locale:
space, horizontal tab, line feed, vertical tab, form feed, carriage
return.  The program never installs another locale before these calls
run, so bytes above 127 are never whitespace; UTF-8 continuation bytes
therefore classify exactly like the code points they build, and a
code-point level model is faithful to the byte level code. -/
def isSpaceCh (c : Char) : Bool :=
  c = ' ' || c = '\t' || c = '\n' || c = '\x0B' || c = '\x0C' || c = '\r'

/-- Identifier class: the regex bracket class of digits and the period,
used for the first capture group. -/
def identCh (c : Char) : Bool :=
  ('0' ≤ c && c ≤ '9') || c = '.'

/-- Dot class: the characters matched by the regex dot atom, which in
ECMAScript is every character except a line terminator (line feed and
carriage return for a byte oriented regex). -/
def dotCh (c : Char) : Bool :=
  c != '\n' && c != '\r'

/-- TableInfo from GetTable.cpp lines 29 to 32: a table number and a
table title, both strings. -/
structure TableInfo where
  number : String
  title : String
  deriving DecidableEq, Repr

/-- The literal marker word of the regex in GetTable.cpp line 41. -/
def markerChars : List Char := "Таблица".data

/-- Matching a literal sequence at the head of a list: returns the
remainder when the sequence is a leading segment, otherwise none.  This
models the regex engine consuming the literal marker word. -/
def stripSeq : List Char → List Char → Option (List Char)
  | [], l => some l
  | _ :: _, [] => none
  | p :: ps, c :: cs => if p = c then stripSeq ps cs else none

/-- Capture group 2 of the regex of GetTable.cpp line 41, given the
characters that follow the greedy identifier run.  The optional tail
group is: whitespace plus, lazy dot star, whitespace plus, then the
capture of a greedy dot star.  Under ECMAScript backtracking on a line
without line feeds this evaluates as follows.  The first whitespace plus
prefers the maximal whitespace run w; with that choice the lazy dot star
stops at the first whitespace character strictly after the run (every
character before it is non whitespace, hence matched by dot), the second
whitespace plus then eats the maximal whitespace run there, and the
capture takes the longest following run of dot characters.  If no
whitespace occurs after the first run, that choice fails for every lazy
length, and the first whitespace plus backtracks to length w minus one,
leaving one whitespace character for the second whitespace plus and
capturing the whole remainder, which contains no line terminator because
a carriage return is whitespace; this needs w at least two.  If w is one
or the tail does not begin with whitespace the optional group fails as a
whole, matches empty, and the unmatched capture reads back as the empty
string. -/
def titleOfTail (s : List Char) : String :=
  let w := s.takeWhile isSpaceCh
  let t := s.dropWhile isSpaceCh
  if w.isEmpty then ""
  else
    let r := t.dropWhile (fun c => !(isSpaceCh c))
    if r.isEmpty then
      if 2 ≤ w.length then String.mk t else ""
    else
      String.mk (((r.dropWhile isSpaceCh).takeWhile dotCh))

/-- One attempt of the regex of GetTable.cpp line 41 at a fixed start
position: the literal marker word, then at least one whitespace
character (the greedy whitespace run cannot backtrack into success,
because a shorter run leaves a whitespace character where a digit or
period is required), then the greedy run of digits and periods as
capture group 1, then the optional title group, which never fails as a
whole.  Returns the two capture strings. -/
def matchAt (l : List Char) : Option (String × String) :=
  match stripSeq markerChars l with
  | none => none
  | some r1 =>
    let ws := r1.takeWhile isSpaceCh
    let r2 := r1.dropWhile isSpaceCh
    if ws.isEmpty then none
    else
      let num := r2.takeWhile identCh
      let r3 := r2.dropWhile identCh
      if num.isEmpty then none
      else some (String.mk num, titleOfTail r3)

/-- regex search over a line, GetTable.cpp line 47: try the pattern at
every start position from the left and return the first match. -/
def searchTable : List Char → Option (String × String)
  | [] => none
  | c :: rest =>
    match matchAt (c :: rest) with
    | some r => some r
    | none => searchTable rest

/-- The body of the while loop of GetTable.cpp lines 45 to 52: when the
regex search succeeds on a line, build a TableInfo from capture 1 and
capture 2; a line without a match contributes nothing. -/
def lineRecord (l : List Char) : Option TableInfo :=
  (searchTable l).map (fun p => ⟨p.1, p.2⟩)

/-- getline iteration over a stringstream, GetTable.cpp lines 42 to 45,
written with explicit fuel so that the definition is structural and
computes in the kernel: while the stream is not exhausted, read the
characters up to the next line feed and discard the line feed itself.
A trailing line feed therefore does not produce a final empty line, and
the empty text produces no line at all. -/
def getlinesFuel : Nat → List Char → List (List Char)
  | 0, _ => []
  | _ + 1, [] => []
  | fuel + 1, s =>
    s.takeWhile (fun c => c != '\n') ::
      getlinesFuel fuel ((s.dropWhile (fun c => c != '\n')).drop 1)

/-- The lines read by the getline loop; fuel of length plus one always
suffices because each iteration consumes at least one character. -/
def getlines (s : List Char) : List (List Char) :=
  getlinesFuel (s.length + 1) s

/-- extractTableInfo, GetTable.cpp lines 39 to 56: scan the text line by
line and collect one record per line on which the regex search
succeeds. -/
def extractTableInfo (text : String) : List TableInfo :=
  (getlines text.data).filterMap lineRecord

/-- Lexicographic comparison of character lists, modelling the byte wise
comparison of the C++ string less or equal operator; UTF-8 byte order
and code point order agree, so comparing code points is faithful. -/
def strLeAux : List Char → List Char → Bool
  | [], _ => true
  | _ :: _, [] => false
  | a :: as, b :: bs => if a < b then true else if b < a then false else strLeAux as bs

/-- String less or equal as used in GetTable.cpp line 68. -/
def strLe (a b : String) : Bool :=
  strLeAux a.data b.data

/-- The loop of findMisorderedTables, GetTable.cpp lines 67 to 73, with
the previous number as explicit state: on a violation push the current
number and then the previous number, and always update the previous
number afterwards. -/
def findMisorderedGo : String → List TableInfo → List String
  | _, [] => []
  | prev, t :: ts =>
    (if strLe t.number prev then [t.number, prev] else []) ++
      findMisorderedGo t.number ts

/-- findMisorderedTables, GetTable.cpp lines 63 to 76: the previous
number starts at the string zero and every table is compared against it,
the first table included. -/
def findMisorderedTables (tables : List TableInfo) : List String :=
  findMisorderedGo "0" tables

/-- The loop of findMisorderedTables in the first unnamed variant file,
lines 61 to 66 of part 000: on a violation only the previous number is
pushed. -/
def findMisorderedGoV0 : String → List TableInfo → List String
  | _, [] => []
  | prev, t :: ts =>
    (if strLe t.number prev then [prev] else []) ++
      findMisorderedGoV0 t.number ts

/-- findMisorderedTables of the first unnamed variant file, part 000
lines 57 to 69. -/
def findMisorderedTablesV0 (tables : List TableInfo) : List String :=
  findMisorderedGoV0 "0" tables

/-- The loop of findMisorderedTables in the second unnamed variant file,
part 001 lines 35 to 47: identical to the first variant, on a violation
only the previous number is pushed. -/
def findMisorderedGoV1 : String → List TableInfo → List String
  | _, [] => []
  | prev, t :: ts =>
    (if strLe t.number prev then [prev] else []) ++
      findMisorderedGoV1 t.number ts

/-- findMisorderedTables of the second unnamed variant file, part 001
lines 35 to 47. -/
def findMisorderedTablesV1 (tables : List TableInfo) : List String :=
  findMisorderedGoV1 "0" tables

/-- trim, GetTable.cpp lines 83 to 92: erase the longest leading run of
whitespace, then the longest trailing run of whitespace. -/
def trim (str : String) : String :=
  let s1 := str.data.dropWhile isSpaceCh
  String.mk ((s1.reverse.dropWhile isSpaceCh).reverse)

/-- The std replace call of main, GetTable.cpp line 124: every pipe
character of the whole text becomes the digit one, every other character
is kept. -/
def replacePipes (text : String) : String :=
  String.mk (text.data.map (fun c => if c = '|' then '1' else c))

/-- The core pipeline of main, GetTable.cpp lines 124 to 129: the pipe
substitution over the entire text first, then extraction, then order
validation on the extracted records. -/
def processText (text : String) : List TableInfo × List String :=
  let t := replacePipes text
  let tables := extractTableInfo t
  (tables, findMisorderedTables tables)

/-- Modelled from the spec, section 4.2, for the reference fold of claim
C1: state is the output so far together with the cursor; a violating
record appends first its own identifier and then the cursor, and the
cursor always becomes the current identifier. -/
def specValidatorStep (acc : List String × String) (t : TableInfo) :
    List String × String :=
  ((if strLe t.number acc.2 then acc.1 ++ [t.number, acc.2] else acc.1), t.number)

/-- Modelled from the spec, section 4.2: the reference fold of claim C1,
with the cursor starting at the string zero and no special case for the
first record. -/
def specValidator (records : List TableInfo) : List String :=
  (records.foldl specValidatorStep ([], "0")).1

/-- Modelled from the spec, section 4.1, for claim C7: a line contains a
caption when somewhere in it the marker word is followed by at least one
whitespace character and then at least one character that is a digit or
a period. -/
def specCaptionLine (l : List Char) : Prop :=
  ∃ pre ws tok post, l = pre ++ markerChars ++ ws ++ tok ++ post ∧
    ws ≠ [] ∧ (∀ c ∈ ws, isSpaceCh c = true) ∧
    tok ≠ [] ∧ (∀ c ∈ tok, identCh c = true)

/-- Whether a literal sequence is a leading segment of a list, as a
computable test. -/
def beginsWithSeq : List Char → List Char → Bool
  | [], _ => true
  | _ :: _, [] => false
  | p :: ps, c :: cs => p = c && beginsWithSeq ps cs

/-- Whether the marker word occurs somewhere in a line, as a computable
test, used to state claim C8. -/
def containsMarker : List Char → Bool
  | [] => false
  | c :: rest => beginsWithSeq markerChars (c :: rest) || containsMarker rest

/-- C3: on the records with identifiers two and ten, in this order, the
validator of GetTable.cpp returns exactly ten then two, because the
string ten compares less or equal to the string two lexicographically,
not numerically. -/
theorem c3_lexicographic_quirk :
    findMisorderedTables [⟨"2", ""⟩, ⟨"10", ""⟩] = ["10", "2"] := by
  decide

/-- C4 counterexample: on the line of property P1 the extractor of
GetTable.cpp does not produce the record with title given in the claim,
because the lazy gap of the regex consumes the first word of the
trailing text. -/
theorem c4_counterexample :
    ¬ (extractTableInfo "Таблица 3.1   Список параметров" =
      [⟨"3.1", "Список параметров"⟩]) := by
  decide

/-- C4 amended: on the line of property P1 the extractor yields exactly
one record, with identifier three point one and with title equal to the
second word only, the first word having been consumed by the lazy gap of
the title group of the regex. -/
theorem c4_extraction_amended :
    extractTableInfo "Таблица 3.1   Список параметров" =
      [⟨"3.1", "параметров"⟩] := by
  decide

/-- C5: on a caption line with no text after the identifier the
extractor yields exactly one record whose title is the empty string. -/
theorem c5_no_title :
    extractTableInfo "Таблица 5" = [⟨"5", ""⟩] := by
  decide

/-- C9 counterexample: the validator of GetTable.cpp and the validator
of the variant files disagree on the two record input with identifiers
two and ten: the former reports two entries per violation, the latter
only one. -/
theorem c9_counterexample :
    findMisorderedTables [⟨"2", ""⟩, ⟨"10", ""⟩] ≠
      findMisorderedTablesV0 [⟨"2", ""⟩, ⟨"10", ""⟩] := by
  decide

/-- Helper for claim C1: the reference fold with any starting output and
cursor computes that output followed by what the loop of GetTable.cpp
produces from the same cursor. -/
theorem specValidator_foldl_go (ts : List TableInfo) :
    ∀ (out : List String) (prev : String),
      (List.foldl specValidatorStep (out, prev) ts).1 =
        out ++ findMisorderedGo prev ts := by
  induction ts with
  | nil => intro out prev; simp [findMisorderedGo]
  | cons t ts ih =>
    intro out prev
    cases hst : strLe t.number prev with
    | false => simp [findMisorderedGo, specValidatorStep, hst, ih]
    | true => simp [findMisorderedGo, specValidatorStep, hst, ih]

/-- C1: the validator of GetTable.cpp equals the reference fold of the
spec: a cursor starting at the string zero, visiting records in order,
appending the current identifier and then the cursor on each violation,
and always updating the cursor to the current identifier, with the first
record compared against the string zero like any other. -/
theorem c1_validator_matches_spec_fold (ts : List TableInfo) :
    findMisorderedTables ts = specValidator ts := by
  simp [findMisorderedTables, specValidator, specValidator_foldl_go]

/-- Helper for claim C9: the two variant loops are the same function. -/
theorem variant_go_eq (ts : List TableInfo) :
    ∀ prev : String, findMisorderedGoV0 prev ts = findMisorderedGoV1 prev ts := by
  induction ts with
  | nil => intro prev; rfl
  | cons t ts ih =>
    intro prev
    simp [findMisorderedGoV0, findMisorderedGoV1, ih]

/-- Helper for claim C9: the loop of GetTable.cpp reports nothing
exactly when the variant loop reports nothing, from any cursor. -/
theorem go_nil_iff_goV0_nil (ts : List TableInfo) :
    ∀ prev : String,
      (findMisorderedGo prev ts = [] ↔ findMisorderedGoV0 prev ts = []) := by
  induction ts with
  | nil => intro prev; simp [findMisorderedGo, findMisorderedGoV0]
  | cons t ts ih =>
    intro prev
    cases hst : strLe t.number prev with
    | false => simp [findMisorderedGo, findMisorderedGoV0, hst, ih]
    | true => simp [findMisorderedGo, findMisorderedGoV0, hst]

/-- C9 amended: the two variant implementations of the order validator
are extensionally equal to each other, and on every input they agree
with the validator of GetTable.cpp about whether any anomaly exists; but
GetTable.cpp reports two entries per violation, the current identifier
then the previous one, while both variants report only the previous
identifier, so the three are not all extensionally equal. -/
theorem c9_variants_amended (ts : List TableInfo) :
    findMisorderedTablesV0 ts = findMisorderedTablesV1 ts ∧
      (findMisorderedTables ts = [] ↔ findMisorderedTablesV0 ts = []) := by
  refine ⟨variant_go_eq ts "0", ?_⟩
  exact go_nil_iff_goV0_nil ts "0"

/-- C6: the pipeline of main applies the pipe substitution to the whole
text before any line scanning, the substituted text contains no pipe
character, and on the line of property P3 the extracted identifier is
two one one. -/
theorem c6_pipe_substitution :
    (∀ text : String,
        processText text =
          (extractTableInfo (replacePipes text),
            findMisorderedTables (extractTableInfo (replacePipes text)))) ∧
      (∀ text : String,
        (replacePipes text).data.all (fun c => c != '|') = true) ∧
      replacePipes "Таблица 2|1 Итог" = "Таблица 211 Итог" ∧
      (processText "Таблица 2|1 Итог").1 = [⟨"211", ""⟩] := by
  refine ⟨fun text => rfl, ?_, by decide, by decide⟩
  intro text
  rw [List.all_eq_true]
  intro c hc
  simp only [replacePipes, List.mem_map] at hc
  obtain ⟨a, _, ha⟩ := hc
  by_cases h : a = '|'
  · simp [h] at ha; simp [← ha]
  · simp [h] at ha; simp [← ha, h]

/-- takeWhile skips over a block whose members all satisfy the test. -/
theorem takeWhile_append_of_all (p : Char → Bool) :
    ∀ (xs ys : List Char), (∀ a ∈ xs, p a = true) →
      (xs ++ ys).takeWhile p = xs ++ ys.takeWhile p := by
  intro xs
  induction xs with
  | nil => intro ys _; simp
  | cons x xs ih =>
    intro ys h
    have hx : p x = true := h x (by simp)
    simp only [List.cons_append, List.takeWhile_cons_of_pos hx]
    rw [ih ys (fun a ha => h a (by simp [ha]))]

/-- dropWhile removes a block whose members all satisfy the test. -/
theorem dropWhile_append_of_all (p : Char → Bool) :
    ∀ (xs ys : List Char), (∀ a ∈ xs, p a = true) →
      (xs ++ ys).dropWhile p = ys.dropWhile p := by
  intro xs
  induction xs with
  | nil => intro ys _; simp
  | cons x xs ih =>
    intro ys h
    have hx : p x = true := h x (by simp)
    simp only [List.cons_append, List.dropWhile_cons_of_pos hx]
    exact ih ys (fun a ha => h a (by simp [ha]))

/-- The head of a dropWhile result never satisfies the test. -/
theorem head?_dropWhile_false (p : Char → Bool) :
    ∀ (l : List Char) (c : Char), (l.dropWhile p).head? = some c → p c = false := by
  intro l
  induction l with
  | nil => intro c h; simp at h
  | cons a as ih =>
    intro c h
    by_cases hpa : p a = true
    · rw [List.dropWhile_cons_of_pos hpa] at h
      exact ih c h
    · rw [List.dropWhile_cons_of_neg hpa] at h
      simp only [List.head?_cons, Option.some.injEq] at h
      subst h
      exact Bool.not_eq_true _ ▸ (by simpa using hpa)

/-- dropWhile is idempotent. -/
theorem dropWhile_idem (p : Char → Bool) (l : List Char) :
    (l.dropWhile p).dropWhile p = l.dropWhile p := by
  cases hd : l.dropWhile p with
  | nil => rfl
  | cons a as =>
    have ha : p a = false := by
      apply head?_dropWhile_false p l
      rw [hd]; rfl
    rw [List.dropWhile_cons_of_neg (by simp [ha])]

/-- A whitespace character is not a digit or period. -/
theorem ident_of_space_false (c : Char) (h : isSpaceCh c = true) :
    identCh c = false := by
  simp only [isSpaceCh, Bool.or_eq_true, decide_eq_true_eq] at h
  rcases h with ((((h | h) | h) | h) | h) | h <;> subst h <;> rfl

/-- A digit or period character is not whitespace. -/
theorem space_of_ident_false (c : Char) (h : identCh c = true) :
    isSpaceCh c = false := by
  cases hs : isSpaceCh c with
  | false => rfl
  | true =>
    rw [ident_of_space_false c hs] at h
    exact absurd h (by simp)

/-- A successful strip of a literal sequence decomposes the list. -/
theorem stripSeq_eq_append :
    ∀ (p l r : List Char), stripSeq p l = some r → l = p ++ r := by
  intro p
  induction p with
  | nil =>
    intro l r h
    simp only [stripSeq, Option.some.injEq] at h
    simp [h]
  | cons a ps ih =>
    intro l r h
    cases l with
    | nil => simp [stripSeq] at h
    | cons c cs =>
      simp only [stripSeq] at h
      by_cases hac : a = c
      · subst hac
        simp only [if_pos rfl] at h
        simp [ih cs r h]
      · simp [hac] at h

/-- Stripping a literal sequence from itself plus a remainder yields the
remainder. -/
theorem stripSeq_self_append :
    ∀ (p r : List Char), stripSeq p (p ++ r) = some r := by
  intro p
  induction p with
  | nil => intro r; rfl
  | cons a ps ih => intro r; simp [stripSeq, ih]

/-- A successful strip means the literal sequence leads the list. -/
theorem beginsWithSeq_of_stripSeq :
    ∀ (p l r : List Char), stripSeq p l = some r → beginsWithSeq p l = true := by
  intro p
  induction p with
  | nil => intro l r _; rfl
  | cons a ps ih =>
    intro l r h
    cases l with
    | nil => simp [stripSeq] at h
    | cons c cs =>
      simp only [stripSeq] at h
      by_cases hac : a = c
      · subst hac
        simp only [if_pos rfl] at h
        simp [beginsWithSeq, ih cs r h]
      · simp [hac] at h

/-- A successful match attempt decomposes the list into the marker word,
a nonempty whitespace run, a nonempty digit and period run forming
capture one, and a remainder. -/
theorem matchAt_some_decomp (l : List Char) (pr : String × String)
    (h : matchAt l = some pr) :
    ∃ ws tok post, l = markerChars ++ (ws ++ (tok ++ post)) ∧
      ws ≠ [] ∧ (∀ c ∈ ws, isSpaceCh c = true) ∧
      tok ≠ [] ∧ (∀ c ∈ tok, identCh c = true) ∧
      pr.1 = String.mk tok := by
  unfold matchAt at h
  cases hs : stripSeq markerChars l with
  | none => rw [hs] at h; exact absurd h (by simp)
  | some r1 =>
    rw [hs] at h
    dsimp only at h
    by_cases hws : (r1.takeWhile isSpaceCh).isEmpty = true
    · rw [if_pos hws] at h; exact absurd h (by simp)
    · rw [if_neg hws] at h
      by_cases hnum : ((r1.dropWhile isSpaceCh).takeWhile identCh).isEmpty = true
      · rw [if_pos hnum] at h; exact absurd h (by simp)
      · rw [if_neg hnum] at h
        refine ⟨r1.takeWhile isSpaceCh,
          (r1.dropWhile isSpaceCh).takeWhile identCh,
          (r1.dropWhile isSpaceCh).dropWhile identCh, ?_, ?_, ?_, ?_, ?_, ?_⟩
        · rw [stripSeq_eq_append markerChars l r1 hs]
          rw [List.takeWhile_append_dropWhile, List.takeWhile_append_dropWhile]
        · intro hcon; rw [hcon] at hws; exact hws rfl
        · intro c hc; exact List.mem_takeWhile_imp hc
        · intro hcon; rw [hcon] at hnum; exact hnum rfl
        · intro c hc; exact List.mem_takeWhile_imp hc
        · have := congrArg Prod.fst (Option.some.injEq _ _ ▸ h :
            (String.mk ((r1.dropWhile isSpaceCh).takeWhile identCh),
              titleOfTail ((r1.dropWhile isSpaceCh).dropWhile identCh)) = pr)
          exact this.symm

/-- A list of the decomposed caption shape always matches. -/
theorem matchAt_of_decomp (ws tok post : List Char)
    (hws : ws ≠ []) (hwsp : ∀ c ∈ ws, isSpaceCh c = true)
    (htok : tok ≠ []) (htokp : ∀ c ∈ tok, identCh c = true) :
    (matchAt (markerChars ++ (ws ++ (tok ++ post)))).isSome = true := by
  unfold matchAt
  rw [stripSeq_self_append]
  dsimp only
  cases ws with
  | nil => exact absurd rfl hws
  | cons w ws2 =>
    have hw : isSpaceCh w = true := hwsp w (by simp)
    cases tok with
    | nil => exact absurd rfl htok
    | cons t0 tok2 =>
      have ht0 : identCh t0 = true := htokp t0 (by simp)
      have ht0s : isSpaceCh t0 = false := space_of_ident_false t0 ht0
      have hdrop : ((w :: ws2) ++ ((t0 :: tok2) ++ post)).dropWhile isSpaceCh
          = t0 :: (tok2 ++ post) := by
        rw [dropWhile_append_of_all isSpaceCh (w :: ws2) ((t0 :: tok2) ++ post) hwsp]
        rw [List.cons_append, List.dropWhile_cons_of_neg (by simp [ht0s])]
      rw [hdrop]
      rw [List.cons_append, List.takeWhile_cons_of_pos hw]
      rw [List.takeWhile_cons_of_pos ht0]
      simp

/-- The search succeeds on any line that extends a matching tail. -/
theorem searchTable_isSome_append :
    ∀ (pre m : List Char), (matchAt m).isSome = true →
      (searchTable (pre ++ m)).isSome = true := by
  intro pre
  induction pre with
  | nil =>
    intro m hm
    cases m with
    | nil =>
      have h0 : matchAt ([] : List Char) = none := by decide
      rw [h0] at hm
      exact absurd hm (by simp)
    | cons c cs =>
      simp only [List.nil_append]
      cases hma : matchAt (c :: cs) with
      | some r => simp [searchTable, hma]
      | none => rw [hma] at hm; exact absurd hm (by simp)
  | cons c pre ih =>
    intro m hm
    simp only [List.cons_append]
    cases hma : matchAt (c :: (pre ++ m)) with
    | some r => simp [searchTable, hma]
    | none =>
      simp only [searchTable, hma]
      exact ih m hm

/-- A successful search on a line comes from a successful match attempt
somewhere. -/
theorem searchTable_some_matchAt :
    ∀ (l : List Char) (pr : String × String), searchTable l = some pr →
      ∃ m : List Char, matchAt m = some pr := by
  intro l
  induction l with
  | nil => intro pr h; simp [searchTable] at h
  | cons c cs ih =>
    intro pr h
    cases hma : matchAt (c :: cs) with
    | some r =>
      simp only [searchTable, hma] at h
      exact ⟨c :: cs, by rw [hma, h]⟩
    | none =>
      simp only [searchTable, hma] at h
      exact ih pr h

/-- A successful search means the line has the caption shape of the
spec. -/
theorem searchTable_isSome_caption :
    ∀ (l : List Char), (searchTable l).isSome = true → specCaptionLine l := by
  intro l
  induction l with
  | nil => intro h; simp [searchTable] at h
  | cons c cs ih =>
    intro h
    cases hma : matchAt (c :: cs) with
    | some r =>
      obtain ⟨ws, tok, post, hl, h1, h2, h3, h4, _⟩ :=
        matchAt_some_decomp (c :: cs) r hma
      exact ⟨[], ws, tok, post, by simpa using hl, h1, h2, h3, h4⟩
    | none =>
      simp only [searchTable, hma] at h
      obtain ⟨pre, ws, tok, post, hl, hh⟩ := ih h
      exact ⟨c :: pre, ws, tok, post, by simp [hl], hh⟩

/-- A line of the caption shape of the spec makes the search succeed. -/
theorem caption_searchTable_isSome (l : List Char) (h : specCaptionLine l) :
    (searchTable l).isSome = true := by
  obtain ⟨pre, ws, tok, post, hl, h1, h2, h3, h4⟩ := h
  subst hl
  have hm := matchAt_of_decomp ws tok post h1 h2 h3 h4
  have := searchTable_isSome_append pre (markerChars ++ (ws ++ (tok ++ post))) hm
  simpa using this

/-- C7: the extractor scans the text line by line on line feed
boundaries; a line produces a record exactly when it contains the marker
word followed by whitespace and then a digit or period character, at
most one record comes from each line, and every produced record has a
nonempty identifier made of digits and periods only. -/
theorem c7_matching_iff (text : String) :
    extractTableInfo text = (getlines text.data).filterMap lineRecord ∧
      ∀ l ∈ getlines text.data,
        ((lineRecord l).isSome = true ↔ specCaptionLine l) ∧
          ∀ r : TableInfo, lineRecord l = some r →
            r.number.data ≠ [] ∧ ∀ c ∈ r.number.data, identCh c = true := by
  refine ⟨rfl, ?_⟩
  intro l _
  constructor
  · constructor
    · intro h
      have hs : (searchTable l).isSome = true := by
        simpa [lineRecord] using h
      exact searchTable_isSome_caption l hs
    · intro h
      have hs := caption_searchTable_isSome l h
      simpa [lineRecord] using hs
  · intro r hr
    simp only [lineRecord, Option.map_eq_some'] at hr
    obtain ⟨pr, hpr, hrr⟩ := hr
    obtain ⟨m, hm⟩ := searchTable_some_matchAt l pr hpr
    obtain ⟨ws, tok, post, _, _, _, htok, htokp, hnum⟩ :=
      matchAt_some_decomp m pr hm
    have hrnum : r.number = pr.1 := by rw [← hrr]
    constructor
    · rw [hrnum, hnum]
      exact htok
    · intro c hc
      rw [hrnum, hnum] at hc
      exact htokp c hc

/-- C7 witness: on a concrete one line text the search succeeds, and the
produced record has a nonempty digit identifier. -/
theorem c7_matching_iff_witness :
    extractTableInfo "Таблица 4" =
        (getlines "Таблица 4".data).filterMap lineRecord ∧
      (lineRecord "Таблица 4".data).isSome = true ∧
      (⟨"4", ""⟩ : TableInfo).number.data ≠ [] ∧
      ∀ c ∈ (⟨"4", ""⟩ : TableInfo).number.data, identCh c = true := by
  have h := c7_matching_iff "Таблица 4"
  have hmem : "Таблица 4".data ∈ getlines "Таблица 4".data := by decide
  have hrec : lineRecord "Таблица 4".data = some ⟨"4", ""⟩ := by decide
  have hline := h.2 "Таблица 4".data hmem
  refine ⟨h.1, ?_, (hline.2 ⟨"4", ""⟩ hrec).1, (hline.2 ⟨"4", ""⟩ hrec).2⟩
  exact hline.1.mpr ⟨[], [' '], ['4'], [],
    by decide, by decide, by decide, by decide, by decide⟩

/-- Helper for claim C8: a successful search requires the marker word to
occur somewhere in the line. -/
theorem containsMarker_of_searchTable :
    ∀ (l : List Char) (pr : String × String),
      searchTable l = some pr → containsMarker l = true := by
  intro l
  induction l with
  | nil => intro pr h; simp [searchTable] at h
  | cons c cs ih =>
    intro pr h
    cases hma : matchAt (c :: cs) with
    | some r =>
      unfold matchAt at hma
      cases hs : stripSeq markerChars (c :: cs) with
      | none => rw [hs] at hma; exact absurd hma (by simp)
      | some r1 =>
        have hb := beginsWithSeq_of_stripSeq markerChars (c :: cs) r1 hs
        simp [containsMarker, hb]
    | none =>
      simp only [searchTable, hma] at h
      simp [containsMarker, ih pr h]

/-- C8: when no line of the text contains the marker word the extractor
returns the empty sequence and the validator on that result returns the
empty sequence as well; both functions are total Lean functions, so
neither can fail or raise. -/
theorem c8_empty_yield (text : String)
    (h : ∀ l ∈ getlines text.data, containsMarker l = false) :
    extractTableInfo text = [] ∧
      findMisorderedTables (extractTableInfo text) = [] := by
  have he : extractTableInfo text = [] := by
    unfold extractTableInfo
    rw [List.filterMap_eq_nil_iff]
    intro l hl
    cases hlr : lineRecord l with
    | none => rfl
    | some r =>
      exfalso
      simp only [lineRecord, Option.map_eq_some'] at hlr
      obtain ⟨pr, hpr, _⟩ := hlr
      have hm := containsMarker_of_searchTable l pr hpr
      rw [h l hl] at hm
      exact absurd hm (by simp)
  exact ⟨he, by rw [he]; rfl⟩

/-- C8 witness: a concrete marker free two line text yields the empty
record sequence and the empty anomaly sequence. -/
theorem c8_empty_yield_witness :
    extractTableInfo "hello\nworld" = [] ∧
      findMisorderedTables (extractTableInfo "hello\nworld") = [] :=
  c8_empty_yield "hello\nworld" (by decide)

/-- C2 counterexample: on a line whose free text after the identifier is
two words, the extractor of GetTable.cpp does not keep the whole text as
the title: the lazy gap of the regex consumes the first word, so only
the second word remains. -/
theorem c2_counterexample :
    (extractTableInfo "Таблица 7 Состав смеси").map TableInfo.title
        = ["смеси"] ∧
      ("смеси" : String) ≠ "Состав смеси" ∧
      ("смеси" : String) ≠ " Состав смеси" := by
  decide

/-- Helper for claim C2: the exact value of a match attempt on a list
that begins with the marker, a whitespace run and an identifier run. -/
theorem matchAt_value (sp0 ident0 r3 : List Char)
    (hsp0 : sp0 ≠ []) (hsp0p : ∀ c ∈ sp0, isSpaceCh c = true)
    (hid : ident0 ≠ []) (hidp : ∀ c ∈ ident0, identCh c = true)
    (hr3 : ∀ c, r3.head? = some c → identCh c = false) :
    matchAt (markerChars ++ (sp0 ++ (ident0 ++ r3))) =
      some (String.mk ident0, titleOfTail r3) := by
  unfold matchAt
  rw [stripSeq_self_append]
  dsimp only
  cases sp0 with
  | nil => exact absurd rfl hsp0
  | cons w ws2 =>
    cases ident0 with
    | nil => exact absurd rfl hid
    | cons i is =>
      have hw : isSpaceCh w = true := hsp0p w (by simp)
      have hi : identCh i = true := hidp i (by simp)
      have his : isSpaceCh i = false := space_of_ident_false i hi
      have htake : ((w :: ws2) ++ ((i :: is) ++ r3)).takeWhile isSpaceCh
          = (w :: ws2) ++ (((i :: is) ++ r3).takeWhile isSpaceCh) :=
        takeWhile_append_of_all isSpaceCh (w :: ws2) ((i :: is) ++ r3) hsp0p
      have htake2 : ((i :: is) ++ r3).takeWhile isSpaceCh = [] := by
        rw [List.cons_append, List.takeWhile_cons_of_neg (by simp [his])]
      have hdrop : ((w :: ws2) ++ ((i :: is) ++ r3)).dropWhile isSpaceCh
          = (i :: is) ++ r3 := by
        rw [dropWhile_append_of_all isSpaceCh (w :: ws2) ((i :: is) ++ r3) hsp0p]
        rw [List.cons_append, List.dropWhile_cons_of_neg (by simp [his])]
      have htaken : ((i :: is) ++ r3).takeWhile identCh
          = (i :: is) ++ (r3.takeWhile identCh) :=
        takeWhile_append_of_all identCh (i :: is) r3 hidp
      have htaker3 : r3.takeWhile identCh = [] := by
        cases r3 with
        | nil => rfl
        | cons c cs =>
          have := hr3 c rfl
          rw [List.takeWhile_cons_of_neg (by simp [this])]
      have hdropn : ((i :: is) ++ r3).dropWhile identCh = r3 := by
        rw [dropWhile_append_of_all identCh (i :: is) r3 hidp]
        cases r3 with
        | nil => rfl
        | cons c cs =>
          have := hr3 c rfl
          rw [List.dropWhile_cons_of_neg (by simp [this])]
      rw [htake, htake2, hdrop, htaken, htaker3, hdropn]
      simp

/-- Helper for claim C2: the exact value of capture two on a tail made
of a whitespace run, a gap word, a second whitespace run and remaining
title text that does not start with whitespace; the greedy capturing
dot star stops before any line terminator inside that text. -/
theorem titleOfTail_value (sp1 gap sp2 rest : List Char)
    (hsp1 : sp1 ≠ []) (hsp1p : ∀ c ∈ sp1, isSpaceCh c = true)
    (hgap : gap ≠ []) (hgapp : ∀ c ∈ gap, isSpaceCh c = false)
    (hsp2 : sp2 ≠ []) (hsp2p : ∀ c ∈ sp2, isSpaceCh c = true)
    (hrest : rest.head?.all (fun c => !(isSpaceCh c)) = true) :
    titleOfTail (sp1 ++ (gap ++ (sp2 ++ rest)))
      = String.mk (rest.takeWhile dotCh) := by
  unfold titleOfTail
  dsimp only
  cases sp1 with
  | nil => exact absurd rfl hsp1
  | cons w ws2 =>
    cases gap with
    | nil => exact absurd rfl hgap
    | cons g gs =>
      cases sp2 with
      | nil => exact absurd rfl hsp2
      | cons u us =>
        have hg : isSpaceCh g = false := hgapp g (by simp)
        have hu : isSpaceCh u = true := hsp2p u (by simp)
        have hw : isSpaceCh w = true := hsp1p w (by simp)
        have htake : ((w :: ws2) ++ ((g :: gs) ++ ((u :: us) ++ rest))).takeWhile isSpaceCh
            = (w :: ws2) ++ ((((g :: gs) ++ ((u :: us) ++ rest))).takeWhile isSpaceCh) :=
          takeWhile_append_of_all isSpaceCh _ _ hsp1p
        have htake2 : (((g :: gs) ++ ((u :: us) ++ rest))).takeWhile isSpaceCh = [] := by
          rw [List.cons_append, List.takeWhile_cons_of_neg (by simp [hg])]
        have hdropsp : ((w :: ws2) ++ ((g :: gs) ++ ((u :: us) ++ rest))).dropWhile isSpaceCh
            = (g :: gs) ++ ((u :: us) ++ rest) := by
          rw [dropWhile_append_of_all isSpaceCh _ _ hsp1p]
          rw [List.cons_append, List.dropWhile_cons_of_neg (by simp [hg])]
        have hdropg : ((g :: gs) ++ ((u :: us) ++ rest)).dropWhile (fun c => !(isSpaceCh c))
            = (u :: us) ++ rest := by
          rw [dropWhile_append_of_all (fun c => !(isSpaceCh c)) (g :: gs) _
            (fun a ha => by simp [hgapp a ha])]
          rw [List.cons_append, List.dropWhile_cons_of_neg (by simp [hu])]
        have hdropu : ((u :: us) ++ rest).dropWhile isSpaceCh = rest := by
          rw [dropWhile_append_of_all isSpaceCh (u :: us) rest hsp2p]
          cases rest with
          | nil => rfl
          | cons c cs =>
            have hc : isSpaceCh c = false := by
              simpa using hrest
            rw [List.dropWhile_cons_of_neg (by simp [hc])]
        rw [htake, htake2, hdropsp, hdropg, hdropu]
        simp

/-- Helper for claim C2: when the tail after the identifier is empty or
does not begin with whitespace, the optional title group fails and the
unmatched capture reads back empty. -/
theorem titleOfTail_no_space_head (tail : List Char)
    (h : tail.head?.all (fun c => !(isSpaceCh c)) = true) :
    titleOfTail tail = "" := by
  cases tail with
  | nil => rfl
  | cons c cs =>
    have hc : isSpaceCh c = false := by simpa using h
    unfold titleOfTail
    dsimp only
    rw [List.takeWhile_cons_of_neg (by simp [hc])]
    simp

/-- dropWhile empties a list whose members all satisfy the test. -/
theorem dropWhile_all_nil (p : Char → Bool) (l : List Char)
    (h : ∀ a ∈ l, p a = true) : l.dropWhile p = [] := by
  have := dropWhile_append_of_all p l [] h
  simpa using this

/-- Helper for claim C2: the value of capture two when exactly one
whitespace free chunk follows the whitespace run after the identifier:
with a run of length one the whole optional group fails and the capture
is empty, while with a longer run the first whitespace plus of the
regex backtracks by one character and the capture is the chunk
itself. -/
theorem titleOfTail_one_chunk (sp1 t : List Char)
    (hsp1p : ∀ c ∈ sp1, isSpaceCh c = true)
    (htp : ∀ c ∈ t, isSpaceCh c = false) :
    (sp1.length = 1 → titleOfTail (sp1 ++ t) = "") ∧
      (2 ≤ sp1.length → titleOfTail (sp1 ++ t) = String.mk t) := by
  have htake : (sp1 ++ t).takeWhile isSpaceCh = sp1 := by
    rw [takeWhile_append_of_all isSpaceCh sp1 t hsp1p]
    have ht0 : t.takeWhile isSpaceCh = [] := by
      cases t with
      | nil => rfl
      | cons c cs =>
        rw [List.takeWhile_cons_of_neg (by simp [htp c (by simp)])]
    rw [ht0, List.append_nil]
  have hdrop : (sp1 ++ t).dropWhile isSpaceCh = t := by
    rw [dropWhile_append_of_all isSpaceCh sp1 t hsp1p]
    cases t with
    | nil => rfl
    | cons c cs =>
      rw [List.dropWhile_cons_of_neg (by simp [htp c (by simp)])]
  have hr : t.dropWhile (fun c => !(isSpaceCh c)) = [] :=
    dropWhile_all_nil _ t (fun a ha => by simp [htp a ha])
  constructor
  · intro h1
    unfold titleOfTail
    dsimp only
    rw [htake, hdrop, hr]
    cases sp1 with
    | nil => simp at h1
    | cons a as => simp [h1]
  · intro h2
    unfold titleOfTail
    dsimp only
    rw [htake, hdrop, hr]
    cases sp1 with
    | nil => simp at h2
    | cons a as =>
      rw [if_neg (by simp),
        if_pos (show (List.isEmpty ([] : List Char)) = true from rfl), if_pos h2]

/-- Helper for claim C2: when the marker word does not occur starting
at any position of the leading block, the search over the whole line
equals the search over the remainder, so the described occurrence is
the leftmost one. -/
theorem searchTable_append_no_marker :
    ∀ (pre m : List Char),
      (∀ n, n < pre.length →
        beginsWithSeq markerChars ((pre ++ m).drop n) = false) →
      searchTable (pre ++ m) = searchTable m := by
  intro pre
  induction pre with
  | nil => intro m _; rfl
  | cons c pre ih =>
    intro m h
    have h0 : beginsWithSeq markerChars (c :: (pre ++ m)) = false := by
      have := h 0 (by simp)
      simpa using this
    have hma : matchAt (c :: (pre ++ m)) = none := by
      unfold matchAt
      cases hs : stripSeq markerChars (c :: (pre ++ m)) with
      | none => rfl
      | some r =>
        have hb := beginsWithSeq_of_stripSeq markerChars (c :: (pre ++ m)) r hs
        rw [h0] at hb
        exact absurd hb (by simp)
    have hstep : searchTable ((c :: pre) ++ m) = searchTable (pre ++ m) := by
      simp [searchTable, hma]
    rw [hstep]
    apply ih
    intro n hn
    have := h (n + 1) (by simpa using Nat.succ_lt_succ hn)
    simpa using this

/-- Helper for claim C2: a successful match attempt at the start of a
line is what the search returns, turned into a record. -/
theorem lineRecord_of_matchAt (c : Char) (cs : List Char) (pr : String × String)
    (h : matchAt (c :: cs) = some pr) :
    lineRecord (c :: cs) = some ⟨pr.1, pr.2⟩ := by
  simp [lineRecord, searchTable, h]

/-- C2 amended: for every line whose leftmost marker occurrence is
followed by whitespace and the maximal identifier run, the title is not
the entire free text after the identifier; instead: when the tail after
the identifier is empty or does not begin with whitespace the title is
empty; when exactly one whitespace free chunk follows, the title is
empty if the separating whitespace run has length one and is that chunk
if the run is longer, because the first whitespace plus of the regex
backtracks; and when a second chunk follows, the lazy gap consumes the
first word with its surrounding whitespace and the title is the
remaining text truncated before any carriage return. -/
theorem c2_title_amended
    (pre sp0 ident0 tail : List Char)
    (hpre : ∀ n, n < pre.length →
      beginsWithSeq markerChars
        ((pre ++ (markerChars ++ (sp0 ++ (ident0 ++ tail)))).drop n) = false)
    (hsp0 : sp0 ≠ []) (hsp0p : ∀ c ∈ sp0, isSpaceCh c = true)
    (hid : ident0 ≠ []) (hidp : ∀ c ∈ ident0, identCh c = true)
    (hnotid : tail.head?.all (fun c => !(identCh c)) = true) :
    (tail.head?.all (fun c => !(isSpaceCh c)) = true →
        lineRecord (pre ++ (markerChars ++ (sp0 ++ (ident0 ++ tail))))
          = some ⟨String.mk ident0, ""⟩) ∧
      (∀ sp1 t : List Char, tail = sp1 ++ t →
        (∀ c ∈ sp1, isSpaceCh c = true) → (∀ c ∈ t, isSpaceCh c = false) →
        (sp1.length = 1 →
          lineRecord (pre ++ (markerChars ++ (sp0 ++ (ident0 ++ tail))))
            = some ⟨String.mk ident0, ""⟩) ∧
        (2 ≤ sp1.length →
          lineRecord (pre ++ (markerChars ++ (sp0 ++ (ident0 ++ tail))))
            = some ⟨String.mk ident0, String.mk t⟩)) ∧
      (∀ sp1 gap sp2 rest : List Char,
        tail = sp1 ++ (gap ++ (sp2 ++ rest)) →
        sp1 ≠ [] → (∀ c ∈ sp1, isSpaceCh c = true) →
        gap ≠ [] → (∀ c ∈ gap, isSpaceCh c = false) →
        sp2 ≠ [] → (∀ c ∈ sp2, isSpaceCh c = true) →
        rest.head?.all (fun c => !(isSpaceCh c)) = true →
        lineRecord (pre ++ (markerChars ++ (sp0 ++ (ident0 ++ tail))))
          = some ⟨String.mk ident0, String.mk (rest.takeWhile dotCh)⟩) := by
  have hr3 : ∀ c, tail.head? = some c → identCh c = false := by
    intro c hc
    rw [hc] at hnotid
    simpa using hnotid
  have hm := matchAt_value sp0 ident0 tail hsp0 hsp0p hid hidp hr3
  have hline : lineRecord (pre ++ (markerChars ++ (sp0 ++ (ident0 ++ tail))))
      = some ⟨String.mk ident0, titleOfTail tail⟩ := by
    have hsr : searchTable (pre ++ (markerChars ++ (sp0 ++ (ident0 ++ tail))))
        = searchTable (markerChars ++ (sp0 ++ (ident0 ++ tail))) :=
      searchTable_append_no_marker pre _ hpre
    have heq : markerChars ++ (sp0 ++ (ident0 ++ tail))
        = 'Т' :: ("аблица".data ++ (sp0 ++ (ident0 ++ tail))) := rfl
    have hm2 : lineRecord (markerChars ++ (sp0 ++ (ident0 ++ tail)))
        = some ⟨String.mk ident0, titleOfTail tail⟩ := by
      rw [heq]
      exact lineRecord_of_matchAt _ _ _ (heq ▸ hm)
    unfold lineRecord at hm2 ⊢
    rw [hsr]
    exact hm2
  refine ⟨?_, ?_, ?_⟩
  · intro hns
    rw [hline, titleOfTail_no_space_head tail hns]
  · intro sp1 t hdec hsp1p htp
    subst hdec
    have hoc := titleOfTail_one_chunk sp1 t hsp1p htp
    exact ⟨fun h1 => by rw [hline, hoc.1 h1],
      fun h2 => by rw [hline, hoc.2 h2]⟩
  · intro sp1 gap sp2 rest hdec hsp1 hsp1p hgap hgapp hsp2 hsp2p hrest
    subst hdec
    rw [hline,
      titleOfTail_value sp1 gap sp2 rest hsp1 hsp1p hgap hgapp hsp2 hsp2p hrest]

/-- C2 amended witness: on a concrete line with a leading non marker
block and a single word separated from the identifier by two spaces,
the first whitespace plus backtracks and the title is that word. -/
theorem c2_title_amended_witness :
    lineRecord ("x ".data ++ (markerChars ++ ([' '] ++ ("5".data ++ "  Foo".data))))
      = some ⟨String.mk "5".data, String.mk "Foo".data⟩ := by
  have h := c2_title_amended "x ".data [' '] "5".data "  Foo".data
    (by decide) (by decide) (by decide) (by decide) (by decide) (by decide)
  exact (h.2.1 [' ', ' '] "Foo".data (by decide) (by decide) (by decide)).2
    (by decide)

/-- C10: trim returns its input with all leading and trailing whitespace
removed: the input splits as a whitespace block, the trimmed value and a
whitespace block, so the result is a contiguous piece of the input; the
result neither starts nor ends with whitespace; and trim is
idempotent. -/
theorem c10_trim_spec (s : String) :
    (∃ w1 w2 : List Char,
        s.data = w1 ++ ((trim s).data ++ w2) ∧
          (∀ c ∈ w1, isSpaceCh c = true) ∧ (∀ c ∈ w2, isSpaceCh c = true)) ∧
      (∀ c, (trim s).data.head? = some c → isSpaceCh c = false) ∧
      (∀ c, (trim s).data.getLast? = some c → isSpaceCh c = false) ∧
      trim (trim s) = trim s := by
  have hdata : (trim s).data
      = ((s.data.dropWhile isSpaceCh).reverse.dropWhile isSpaceCh).reverse := rfl
  have h1 : s.data = s.data.takeWhile isSpaceCh ++ s.data.dropWhile isSpaceCh :=
    (List.takeWhile_append_dropWhile _ _).symm
  have h2 : s.data.dropWhile isSpaceCh
      = ((s.data.dropWhile isSpaceCh).reverse.dropWhile isSpaceCh).reverse
        ++ ((s.data.dropWhile isSpaceCh).reverse.takeWhile isSpaceCh).reverse := by
    conv_lhs => rw [← List.reverse_reverse (s.data.dropWhile isSpaceCh),
      ← List.takeWhile_append_dropWhile isSpaceCh (s.data.dropWhile isSpaceCh).reverse]
    rw [List.reverse_append]
  have hhead : ∀ c, (trim s).data.head? = some c → isSpaceCh c = false := by
    intro c hc
    apply head?_dropWhile_false isSpaceCh s.data c
    cases hu : ((s.data.dropWhile isSpaceCh).reverse.dropWhile isSpaceCh).reverse with
    | nil => rw [hdata, hu] at hc; simp at hc
    | cons a u2 =>
      rw [hdata, hu] at hc
      simp only [List.head?_cons, Option.some.injEq] at hc
      rw [h2, hu, ← hc]
      simp
  have hlast : ∀ c, (trim s).data.getLast? = some c → isSpaceCh c = false := by
    intro c hc
    rw [hdata, List.getLast?_reverse] at hc
    exact head?_dropWhile_false isSpaceCh (s.data.dropWhile isSpaceCh).reverse c hc
  have hidem : trim (trim s) = trim s := by
    have e1 : (trim s).data.dropWhile isSpaceCh = (trim s).data := by
      cases hu : (trim s).data with
      | nil => rfl
      | cons a u2 =>
        have ha : isSpaceCh a = false := hhead a (by rw [hu]; rfl)
        rw [List.dropWhile_cons_of_neg (by simp [ha])]
    have e2 : (trim s).data.reverse.dropWhile isSpaceCh = (trim s).data.reverse := by
      cases hv : (trim s).data.reverse with
      | nil => rfl
      | cons b v2 =>
        have hb : isSpaceCh b = false := by
          apply hlast b
          rw [← List.head?_reverse, hv]
          rfl
        rw [List.dropWhile_cons_of_neg (by simp [hb])]
    show String.mk
        ((((trim s).data.dropWhile isSpaceCh).reverse.dropWhile isSpaceCh).reverse)
      = trim s
    rw [e1, e2, List.reverse_reverse]
  refine ⟨⟨s.data.takeWhile isSpaceCh,
    ((s.data.dropWhile isSpaceCh).reverse.takeWhile isSpaceCh).reverse,
    ?_, ?_, ?_⟩, hhead, hlast, hidem⟩
  · rw [hdata]
    exact h1.trans (congrArg (fun z => s.data.takeWhile isSpaceCh ++ z) h2)
  · intro c hc
    exact List.mem_takeWhile_imp hc
  · intro c hc
    rw [List.mem_reverse] at hc
    exact List.mem_takeWhile_imp hc

/-- C10 witness: on a concrete padded string the trimmed value starts
and ends with non whitespace, and trimming twice equals trimming
once. -/
theorem c10_trim_spec_witness :
    isSpaceCh 'a' = false ∧ isSpaceCh 'b' = false ∧
      trim (trim " ab ") = trim " ab " :=
  ⟨(c10_trim_spec " ab ").2.1 'a' (by decide),
    (c10_trim_spec " ab ").2.2.1 'b' (by decide),
    (c10_trim_spec " ab ").2.2.2⟩
